import Mathlib

/-!
Verification of the Refresh Context Engine (RCE) core: the frame index and its
timestamp binary search (`fs-utils.ts`), the tolerant JSONL reader
(`fs-utils.ts`), the recorder's frame-entry construction (`recorder.ts`,
`__rrwebEmit`), the time-travel locator resolution of the `shot` command
(`cli.ts` / `replayer.ts`), and the IPC client's pending-request correlation
map (`ipc.ts`).

Each definition is a shallow embedding of the corresponding TypeScript
function, translated clause by clause from the source.  JavaScript numbers
holding epoch-millisecond timestamps and log indices are modelled as `Int`
(the recorder's absolute counter starts at `-1`); JSON parsing is abstracted
as a function `String → Option α`; the JS `Map` used for correlation ids and
per-timestamp counters is modelled by association lists respectively update
functions, as noted at each definition.
-/

/-- Frame-index entry, from `types.ts`:
`{ ts: number; k: number; i: number; tabId?: number }`.
`tabId` is present on every entry the recorder writes, so it is modelled as a
plain field. -/
structure FrameEntry where
  ts : Int
  k : Nat
  i : Int
  tabId : Nat
deriving DecidableEq

/-- Placeholder used to model JS array indexing `frames[m]`; every access in
the embedded code is guarded so the placeholder is never the value actually
read. -/
def FrameEntry.dflt : FrameEntry := ⟨0, 0, 0, 0⟩

/-- The frame list is sorted by non-decreasing timestamp (the order in which
the recorder appends entries to `frames.jsonl`). -/
def TsSorted (frames : List FrameEntry) : Prop :=
  List.Pairwise (fun a b => a.ts ≤ b.ts) frames

instance : DecidablePred TsSorted := fun frames =>
  inferInstanceAs (Decidable (List.Pairwise _ frames))

/-- Entries sharing a timestamp appear in increasing `k` order (arrival
order), as the recorder writes them. -/
def KOrdered (frames : List FrameEntry) : Prop :=
  List.Pairwise (fun a b => a.ts = b.ts → a.k < b.k) frames

instance : DecidablePred KOrdered := fun frames =>
  inferInstanceAs (Decidable (List.Pairwise _ frames))

/-- The `while (left <= right)` loop of `binarySearchFrameByTimestamp`
(`fs-utils.ts` lines 66-80).  `mid = Math.floor((left + right) / 2)` is
`(left + right) / 2` on `Int` (Euclidean division by the positive constant 2
is floor division); `frames[mid]` is modelled by `List.getD` at `mid.toNat`,
which the loop invariants keep in range.  The loop shrinks `right - left + 1`
on every iteration, so it is embedded with an explicit iteration budget
`fuel`; when the budget runs out the loop result so far is returned, and the
correctness lemmas show a budget of `frames.length` (what the caller passes)
is never exhausted. -/
def bsLoop (frames : List FrameEntry) (targetTs : Int) :
    Nat → Int → Int → Option FrameEntry → Option FrameEntry
  | 0, _, _, result => result
  | fuel + 1, left, right, result =>
    if left ≤ right then
      let mid : Int := (left + right) / 2
      let frame := frames.getD mid.toNat FrameEntry.dflt
      if frame.ts ≤ targetTs then
        bsLoop frames targetTs fuel (mid + 1) right (some frame)
      else
        bsLoop frames targetTs fuel left (mid - 1) result
    else result

/-- `binarySearchFrameByTimestamp` from `fs-utils.ts` lines 58-83:
empty list → `null`; target before the first frame → `null`; target at or
after the last frame → the last frame; otherwise the binary-search loop
(started at `left = 0`, `right = frames.length - 1`, hence an iteration
budget of `frames.length` suffices). -/
def binarySearchFrameByTimestamp (frames : List FrameEntry) (targetTs : Int) :
    Option FrameEntry :=
  if frames.length = 0 then none
  else if targetTs < (frames.getD 0 FrameEntry.dflt).ts then none
  else if (frames.getD (frames.length - 1) FrameEntry.dflt).ts ≤ targetTs then
    some (frames.getD (frames.length - 1) FrameEntry.dflt)
  else bsLoop frames targetTs frames.length 0 ((frames.length : Int) - 1) none

/-- The `+offset` locator branch of `cmdShot` (`cli.ts`): with
`targetTs = firstTs + offset`, take `candidates = filteredFrames.filter(f =>
f.ts <= targetTs)`; error (`None`) when empty, else the absolute index of
`candidates[candidates.length - 1]`. -/
def shotLocateOffset (frames : List FrameEntry) (firstTs offset : Int) :
    Option Int :=
  let targetTs := firstTs + offset
  let candidates := frames.filter (fun f => f.ts ≤ targetTs)
  if candidates.length = 0 then none
  else some ((candidates.getD (candidates.length - 1) FrameEntry.dflt).i)

/-- The ISO-timestamp locator branch of `cmdShot` (`cli.ts`): after
`Date.parse` produced `targetTs`, identical candidate filtering and
last-candidate selection as the offset branch. -/
def shotLocateAtTs (frames : List FrameEntry) (targetTs : Int) : Option Int :=
  let candidates := frames.filter (fun f => f.ts ≤ targetTs)
  if candidates.length = 0 then none
  else some ((candidates.getD (candidates.length - 1) FrameEntry.dflt).i)

/-- An rrweb event as the recorder sees it: a `type` discriminant (5 marks
"custom" events) and an epoch-millisecond `timestamp`. -/
structure RREvent where
  type : Nat
  timestamp : Int
deriving DecidableEq

/-- Recorder state touched by the `__rrwebEmit` handler (`recorder.ts`):
the per-timestamp counter map `tsCounts` (a JS `Map` modelled as a partial
function, `get` / `set` semantics), the global `absIndex` counter (starts at
`-1`), the raw event log `events.rrweb.jsonl` and the frame index
`frames.jsonl`. -/
structure RecorderState where
  tsCounts : Int → Option Nat
  absIndex : Int
  eventsLog : List (Nat × RREvent)
  framesLog : List FrameEntry

/-- State before the first event: `tsCounts = new Map()`, `absIndex = -1`,
empty logs. -/
def initialRecorderState : RecorderState :=
  { tsCounts := fun _ => none, absIndex := -1, eventsLog := [], framesLog := [] }

/-- The `__rrwebEmit` callback body (`recorder.ts` lines 267-297) for one
event from tab `tabId`: increment `absIndex`, append the raw event, and —
unless the event is custom (`type === 5`) — look up
`count = tsCounts.get(ts) ?? 0`, append the frame entry
`{ ts, k: count, i: absIndex, tabId }`, and `tsCounts.set(ts, count + 1)`. -/
def rrwebEmit (st : RecorderState) (tabId : Nat) (evt : RREvent) :
    RecorderState :=
  let absIndex := st.absIndex + 1
  let eventsLog := st.eventsLog ++ [(tabId, evt)]
  if evt.type = 5 then
    { st with absIndex := absIndex, eventsLog := eventsLog }
  else
    let ts := evt.timestamp
    let count := (st.tsCounts ts).getD 0
    let fe : FrameEntry := { ts := ts, k := count, i := absIndex, tabId := tabId }
    { tsCounts := fun t => if t = ts then some (count + 1) else st.tsCounts t,
      absIndex := absIndex,
      eventsLog := eventsLog,
      framesLog := st.framesLog ++ [fe] }

/-- Run a whole arrival-ordered sequence of `(tabId, event)` emissions
through `__rrwebEmit`. -/
def runEmits (st : RecorderState) : List (Nat × RREvent) → RecorderState
  | [] => st
  | (tab, e) :: rest => runEmits (rrwebEmit st tab e) rest

/-- Zero-based positions (in the full arrival order, counting custom events
too) of the non-custom events of a sequence, starting the position counter at
`base`.  Used to state what absolute indices the recorder actually assigns. -/
def nonCustomPositionsFrom (base : Int) : List (Nat × RREvent) → List Int
  | [] => []
  | (_, e) :: rest =>
    if e.type = 5 then nonCustomPositionsFrom (base + 1) rest
    else base :: nonCustomPositionsFrom (base + 1) rest

/-- Zero-based positions of the non-custom events within the full event
sequence. -/
def nonCustomPositions (evs : List (Nat × RREvent)) : List Int :=
  nonCustomPositionsFrom 0 evs

/-- Invariant tying the recorder's `tsCounts` map to the frame log: the
counter stored for a timestamp is the number of frame entries already written
with that timestamp. -/
def TsCountsConsistent (st : RecorderState) : Prop :=
  ∀ ts, (st.tsCounts ts).getD 0
    = (st.framesLog.filter (fun g => g.ts = ts)).length

/-- The ordinal property the recorder actually maintains: each frame entry's
`k` is the number of earlier frame entries (anywhere in the session, any tab)
sharing its exact `ts` value. -/
def KCountProp (F : List FrameEntry) : Prop :=
  ∀ j, j < F.length →
    (F.getD j FrameEntry.dflt).k
      = ((F.take j).filter
          (fun g => g.ts = (F.getD j FrameEntry.dflt).ts)).length

/-- Event selection of `cmdShot` (`cli.ts`): when a `--tab` flag is given,
keep only that tab's events; otherwise all events, in log order. -/
def shotEvents (eventsLines : List (Nat × RREvent)) (flagTab : Option Nat) :
    List RREvent :=
  match flagTab with
  | some t => (eventsLines.filter (fun e => e.1 = t)).map (fun e => e.2)
  | none => eventsLines.map (fun e => e.2)

/-- Tab auto-detection for the `--index` locator (`cli.ts` lines 336-345):
only when no explicit tab was given, find the frame entry with `i` equal to
the requested index and take its `tabId`. -/
def shotAutoTab (frames : List FrameEntry) (flagTab : Option Nat)
    (targetIndex : Int) : Option Nat :=
  match flagTab with
  | some _ => none
  | none =>
    match frames.find? (fun f => f.i = targetIndex) with
    | some f => some f.tabId
    | none => none

/-- Final event list of `cmdShot` (`cli.ts` lines 413-419): when a tab was
auto-detected (and hence differs from the absent explicit flag), re-filter
the raw log to that tab; otherwise keep the initially selected events. -/
def shotFinalEvents (eventsLines : List (Nat × RREvent))
    (frames : List FrameEntry) (flagTab : Option Nat) (targetIndex : Int) :
    List RREvent :=
  match flagTab, shotAutoTab frames flagTab targetIndex with
  | none, some ft => (eventsLines.filter (fun e => e.1 = ft)).map (fun e => e.2)
  | _, _ => shotEvents eventsLines flagTab

deriving instance DecidableEq for Except

/-- The `--index N` path of `cmdShot` (`cli.ts` lines 314-345 and 410-430)
combined with the event slicing of `replayAndScreenshot` (`replayer.ts` line
15, `events.slice(0, targetIndex + 1)`): error when no events exist (before
or after tab resolution), otherwise replay the clamped prefix of the final
event list and report the pass-through target index. -/
def cmdShotByIndex (eventsLines : List (Nat × RREvent))
    (frames : List FrameEntry) (flagTab : Option Nat) (n : Int) :
    Except String (List RREvent × Int) :=
  if shotEvents eventsLines flagTab = [] then
    Except.error "No events found"
  else if shotFinalEvents eventsLines frames flagTab n = [] then
    Except.error "No events found for tab"
  else
    Except.ok ((shotFinalEvents eventsLines frames flagTab n).take (n + 1).toNat, n)

/-- Split a character sequence at every `/\r?\n/` separator, exactly as the
JS `txt.split(/\r?\n/)` in `readJsonLines` (`fs-utils.ts` line 23): a `\n`
terminates a line and consumes one immediately preceding `\r`. -/
def splitCRLF : List Char → List (List Char)
  | [] => [[]]
  | '\r' :: '\n' :: rest => [] :: splitCRLF rest
  | '\n' :: rest => [] :: splitCRLF rest
  | c :: rest =>
    match splitCRLF rest with
    | h :: t => (c :: h) :: t
    | [] => [[c]]

/-- The non-empty lines of a file's text: `txt.split(/\r?\n/).filter(Boolean)`
(only the empty string is falsy). -/
def nonEmptyLines (txt : String) : List String :=
  ((splitCRLF txt.data).map (fun cs => String.mk cs)).filter (fun l => l ≠ "")

/-- The `for` loop of `readJsonLines` (`fs-utils.ts` lines 26-35): try to
parse each line; on success push the record, on failure log a warning and
skip the line, never aborting. -/
def readJsonLinesLoop (parse : String → Option α) :
    List String → List α → List α
  | [], results => results
  | l :: rest, results =>
    match parse l with
    | some v => readJsonLinesLoop parse rest (results ++ [v])
    | none => readJsonLinesLoop parse rest results

/-- `readJsonLines` (`fs-utils.ts` lines 21-38).  The file content is
`none` when `fs.readFile` rejects (missing/unreadable file), in which case
the `.catch(() => "")` substitutes the empty string; `parse` abstracts
`JSON.parse`, returning `none` exactly when it would throw. -/
def readJsonLines (parse : String → Option α) (content : Option String) :
    List α :=
  let txt := content.getD ""
  readJsonLinesLoop parse (nonEmptyLines txt) []

/-- A concrete sample parser standing in for `JSON.parse` when theorems are
instantiated on concrete file contents: accepts the two records "a" and "b",
rejects everything else. -/
def parseAB (s : String) : Option Nat :=
  if s = "a" then some 1 else if s = "b" then some 2 else none

/-- Correlation map of `IPCClient` (`ipc.ts` line 182): `id → pending
resolver`.  Modelled as an association list of ids and opaque resolver
tokens; a JS `Map` never holds two entries with one key. -/
def KeysNodup (m : List (String × Nat)) : Prop := (m.map Prod.fst).Nodup

instance : DecidablePred KeysNodup := fun m =>
  inferInstanceAs (Decidable ((m.map Prod.fst).Nodup))

/-- `pendingRequests.get(id)` / `.has(id)`. -/
def lookupId (m : List (String × Nat)) (id : String) : Option Nat :=
  (m.find? (fun e => e.1 = id)).map (fun e => e.2)

/-- `pendingRequests.delete(id)`: remove the entry with that key. -/
def eraseId (m : List (String × Nat)) (id : String) : List (String × Nat) :=
  m.eraseP (fun e => e.1 = id)

/-- The request-timeout callback of `IPCClient.sendAction` (`ipc.ts` lines
266-272): if the id is still pending, delete it and reject its promise with
the timeout error (`true` = rejected); otherwise nothing happens. -/
def timeoutFire (m : List (String × Nat)) (id : String) :
    List (String × Nat) × Bool :=
  if (lookupId m id).isSome then (eraseId m id, true) else (m, false)

/-- The per-response-line handler of `IPCClient.connect` (`ipc.ts` lines
210-219): look up the pending entry for the response id; if present, delete
it and resolve it (returning the resolver token), else log and do nothing. -/
def handleResponseLine (m : List (String × Nat)) (rid : String) :
    List (String × Nat) × Option Nat :=
  match lookupId m rid with
  | some tok => (eraseId m rid, some tok)
  | none => (m, none)

/-- The socket-close handler of `IPCClient.connect` (`ipc.ts` lines 230-236):
iterate over the pending map, rejecting each entry with the connection-closed
error and deleting it.  Returns the final map and the rejected entries in
iteration order. -/
def closeFire (m : List (String × Nat)) :
    List (String × Nat) × List (String × Nat) :=
  m.foldl (fun st e => (eraseId st.1 e.1, st.2 ++ [e])) (m, [])

/-! ### Association-list lemmas for the IPC correlation map -/

/-- An entry present in the pending map is found by `pendingRequests.has`. -/
theorem lookupId_isSome_of_mem {m : List (String × Nat)} {id : String}
    {tok : Nat} (h : (id, tok) ∈ m) : (lookupId m id).isSome = true := by
  induction m with
  | nil => cases h
  | cons e rest ih =>
    by_cases hid : e.1 = id
    · simp [lookupId, List.find?_cons, hid]
    · rcases List.mem_cons.mp h with he | ht
      · exact absurd (congrArg Prod.fst he.symm) hid
      · simpa [lookupId, List.find?_cons, hid] using ih ht

/-- A key absent from the map is not found. -/
theorem lookupId_eq_none_of_not_mem {m : List (String × Nat)} {id : String}
    (h : id ∉ m.map Prod.fst) : lookupId m id = none := by
  induction m with
  | nil => rfl
  | cons e rest ih =>
    have h1 : ¬ e.1 = id := by
      intro hc; exact h (by simp [hc])
    have h2 : id ∉ rest.map Prod.fst := by
      intro hc; exact h (by simp [hc])
    simpa [lookupId, List.find?_cons, h1] using ih h2

/-- Deleting a key removes it: under the `Map` key-uniqueness invariant, a
lookup of the deleted key fails afterwards. -/
theorem lookupId_eraseId_self {m : List (String × Nat)} {id : String}
    (hnd : KeysNodup m) : lookupId (eraseId m id) id = none := by
  induction m with
  | nil => rfl
  | cons e rest ih =>
    have hnd' : KeysNodup rest := (List.nodup_cons.mp hnd).2
    by_cases hid : e.1 = id
    · have hnotin : id ∉ rest.map Prod.fst := by
        have h0 := (List.nodup_cons.mp hnd).1
        simpa [hid] using h0
      have herase : eraseId (e :: rest) id = rest := by
        simp [eraseId, List.eraseP_cons, hid]
      rw [herase]
      exact lookupId_eq_none_of_not_mem hnotin
    · have herase : eraseId (e :: rest) id = e :: eraseId rest id := by
        simp [eraseId, List.eraseP_cons, hid]
      rw [herase]
      simpa [lookupId, List.find?_cons, hid] using ih hnd'

/-- Deleting one key leaves every other key's entry untouched. -/
theorem lookupId_eraseId_other {m : List (String × Nat)} {id id2 : String}
    (h : id2 ≠ id) : lookupId (eraseId m id) id2 = lookupId m id2 := by
  induction m with
  | nil => rfl
  | cons e rest ih =>
    by_cases hid : e.1 = id
    · have hne : ¬ e.1 = id2 := by rw [hid]; exact fun hc => h hc.symm
      have herase : eraseId (e :: rest) id = rest := by
        simp [eraseId, List.eraseP_cons, hid]
      rw [herase]
      simp [lookupId, List.find?_cons, hne]
    · have herase : eraseId (e :: rest) id = e :: eraseId rest id := by
        simp [eraseId, List.eraseP_cons, hid]
      rw [herase]
      by_cases h2 : e.1 = id2
      · simp [lookupId, List.find?_cons, h2]
      · simpa [lookupId, List.find?_cons, h2] using ih

/-- C6: when a pending request's timeout fires before any matching response,
the client rejects that request (`true`), removes exactly its entry from the
pending map (every other id's entry is untouched), and a late server reply
carrying the same id afterwards is a no-op: it resolves no pending entry and
leaves the map unchanged. -/
theorem timeout_removes_pending_and_late_reply_noop
    (m : List (String × Nat)) (id : String) (tok : Nat)
    (hnd : KeysNodup m) (hmem : (id, tok) ∈ m) :
    (timeoutFire m id).2 = true
    ∧ lookupId (timeoutFire m id).1 id = none
    ∧ (∀ id2, id2 ≠ id → lookupId (timeoutFire m id).1 id2 = lookupId m id2)
    ∧ handleResponseLine (timeoutFire m id).1 id
        = ((timeoutFire m id).1, none) := by
  have hsome : (lookupId m id).isSome = true := lookupId_isSome_of_mem hmem
  have hfire : timeoutFire m id = (eraseId m id, true) := by
    simp [timeoutFire, hsome]
  refine ⟨by rw [hfire], ?_, ?_, ?_⟩
  · rw [hfire]; exact lookupId_eraseId_self hnd
  · intro id2 h2; rw [hfire]; exact lookupId_eraseId_other h2
  · rw [hfire]
    simp [handleResponseLine, lookupId_eraseId_self hnd]

/-- Witness for C6: a two-entry pending map, timeout of id "a". -/
theorem timeout_removes_pending_and_late_reply_noop_witness :
    (timeoutFire [("a", 1), ("b", 2)] "a").2 = true
    ∧ lookupId (timeoutFire [("a", 1), ("b", 2)] "a").1 "a" = none
    ∧ (∀ id2, id2 ≠ "a" →
        lookupId (timeoutFire [("a", 1), ("b", 2)] "a").1 id2
          = lookupId [("a", 1), ("b", 2)] id2)
    ∧ handleResponseLine (timeoutFire [("a", 1), ("b", 2)] "a").1 "a"
        = ((timeoutFire [("a", 1), ("b", 2)] "a").1, none) :=
  timeout_removes_pending_and_late_reply_noop [("a", 1), ("b", 2)] "a" 1
    (by decide) (by decide)

/-- The close-handler fold, iterating over a snapshot `l` while the live map
starts as `l` itself, empties the map and rejects the entries in order. -/
theorem closeFire_loop (l : List (String × Nat)) :
    ∀ r : List (String × Nat),
      l.foldl (fun st e => (eraseId st.1 e.1, st.2 ++ [e])) (l, r)
        = ([], r ++ l) := by
  induction l with
  | nil => intro r; simp
  | cons e rest ih =>
    intro r
    have hstep : eraseId (e :: rest) e.1 = rest :=
      List.eraseP_cons_of_pos (by simp)
    calc (e :: rest).foldl (fun st x => (eraseId st.1 x.1, st.2 ++ [x])) (e :: rest, r)
        = rest.foldl (fun st x => (eraseId st.1 x.1, st.2 ++ [x])) (rest, r ++ [e]) := by
          rw [List.foldl_cons]
          simp only [hstep]
      _ = ([], (r ++ [e]) ++ rest) := ih (r ++ [e])
      _ = ([], r ++ (e :: rest)) := by simp

/-- C7: when the client's socket closes, the close handler rejects every
still-pending entry (each original entry appears in the rejection list, in
iteration order) and removes them all, leaving an empty pending map. -/
theorem close_rejects_all_pending (m : List (String × Nat)) :
    (closeFire m).1 = [] ∧ (closeFire m).2 = m := by
  have h := closeFire_loop m []
  constructor
  · simp [closeFire, h]
  · simp [closeFire, h]

/-! ### The tolerant JSONL reader -/

/-- The read loop accumulates exactly the parseable lines, in order. -/
theorem readJsonLinesLoop_eq_filterMap (parse : String → Option α) :
    ∀ (lines : List String) (acc : List α),
      readJsonLinesLoop parse lines acc = acc ++ lines.filterMap parse := by
  intro lines
  induction lines with
  | nil => intro acc; simp [readJsonLinesLoop]
  | cons l rest ih =>
    intro acc
    cases hp : parse l with
    | some v => simp [readJsonLinesLoop, hp, ih, List.filterMap_cons]
    | none => simp [readJsonLinesLoop, hp, ih, List.filterMap_cons]

/-- C8: for every stored file content, `readJsonLines` returns the records
parsed from exactly the parseable non-empty lines, in file order; a
malformed line is skipped without aborting the read and without dropping any
other line's record. -/
theorem readJsonLines_parses_exactly_good_lines (parse : String → Option α)
    (txt : String) :
    readJsonLines parse (some txt) = (nonEmptyLines txt).filterMap parse
    ∧ ∀ l ∈ nonEmptyLines txt, ∀ v, parse l = some v →
        v ∈ readJsonLines parse (some txt) := by
  have h1 : readJsonLines parse (some txt)
      = (nonEmptyLines txt).filterMap parse := by
    simpa [readJsonLines] using
      readJsonLinesLoop_eq_filterMap parse (nonEmptyLines txt) []
  refine ⟨h1, ?_⟩
  intro l hl v hv
  rw [h1]
  exact List.mem_filterMap.mpr ⟨l, hl, hv⟩

/-- Witness for C8: the middle line "bad" is malformed, yet both "a" and "b"
are parsed and kept in order. -/
theorem readJsonLines_parses_exactly_good_lines_witness :
    readJsonLines parseAB (some "a\nbad\r\nb\n")
        = (nonEmptyLines "a\nbad\r\nb\n").filterMap parseAB
    ∧ (1 : Nat) ∈ readJsonLines parseAB (some "a\nbad\r\nb\n") :=
  ⟨(readJsonLines_parses_exactly_good_lines parseAB "a\nbad\r\nb\n").1,
    (readJsonLines_parses_exactly_good_lines parseAB "a\nbad\r\nb\n").2
      "a" (by decide) 1 (by decide)⟩

/-- C10: when the underlying file is missing or unreadable (the
`fs.readFile(...).catch(() => "")` case), `readJsonLines` returns the empty
list instead of propagating an I/O failure. -/
theorem readJsonLines_missing_file_empty (parse : String → Option α) :
    readJsonLines parse none = [] := by
  have hempty : nonEmptyLines "" = [] := by decide
  simp [readJsonLines, hempty, readJsonLinesLoop]

/-! ### Recorder: absolute indices and per-timestamp ordinals -/

/-- Running the emit handler appends, after the existing frame log, one frame
entry per non-custom event, whose absolute index is the event's zero-based
position in the full arrival order (custom events included), continuing from
the state's counter. -/
theorem runEmits_framesLog_i (evs : List (Nat × RREvent)) :
    ∀ st : RecorderState,
      ((runEmits st evs).framesLog.map (fun f => f.i))
        = st.framesLog.map (fun f => f.i)
          ++ nonCustomPositionsFrom (st.absIndex + 1) evs := by
  induction evs with
  | nil => intro st; simp [runEmits, nonCustomPositionsFrom]
  | cons te rest ih =>
    intro st
    obtain ⟨tab, e⟩ := te
    by_cases h5 : e.type = 5
    · have hrun : runEmits st ((tab, e) :: rest)
          = runEmits (rrwebEmit st tab e) rest := rfl
      have hlog : (rrwebEmit st tab e).framesLog = st.framesLog := by
        simp [rrwebEmit, h5]
      have habs : (rrwebEmit st tab e).absIndex = st.absIndex + 1 := by
        simp [rrwebEmit, h5]
      rw [hrun, ih, hlog, habs]
      have hpos : nonCustomPositionsFrom (st.absIndex + 1) ((tab, e) :: rest)
          = nonCustomPositionsFrom (st.absIndex + 1 + 1) rest := by
        simp [nonCustomPositionsFrom, h5]
      rw [hpos]
    · have hrun : runEmits st ((tab, e) :: rest)
          = runEmits (rrwebEmit st tab e) rest := rfl
      have hlog : (rrwebEmit st tab e).framesLog
          = st.framesLog
            ++ [{ ts := e.timestamp, k := (st.tsCounts e.timestamp).getD 0,
                  i := st.absIndex + 1, tabId := tab }] := by
        simp [rrwebEmit, h5]
      have habs : (rrwebEmit st tab e).absIndex = st.absIndex + 1 := by
        simp [rrwebEmit, h5]
      rw [hrun, ih, hlog, habs]
      have hpos : nonCustomPositionsFrom (st.absIndex + 1) ((tab, e) :: rest)
          = (st.absIndex + 1) :: nonCustomPositionsFrom (st.absIndex + 1 + 1) rest := by
        simp [nonCustomPositionsFrom, h5]
      rw [hpos]
      simp

/-- The position list is strictly increasing and bounded below by its
starting counter. -/
theorem nonCustomPositionsFrom_chain (evs : List (Nat × RREvent)) :
    ∀ base : Int,
      List.Chain' (fun a b => a < b) (nonCustomPositionsFrom base evs)
      ∧ ∀ x ∈ nonCustomPositionsFrom base evs, base ≤ x := by
  induction evs with
  | nil => intro base; simp [nonCustomPositionsFrom]
  | cons te rest ih =>
    intro base
    obtain ⟨tab, e⟩ := te
    by_cases h5 : e.type = 5
    · have hpos : nonCustomPositionsFrom base ((tab, e) :: rest)
          = nonCustomPositionsFrom (base + 1) rest := by
        simp [nonCustomPositionsFrom, h5]
      rw [hpos]
      obtain ⟨hc, hb⟩ := ih (base + 1)
      exact ⟨hc, fun x hx => le_trans (by omega) (hb x hx)⟩
    · have hpos : nonCustomPositionsFrom base ((tab, e) :: rest)
          = base :: nonCustomPositionsFrom (base + 1) rest := by
        simp [nonCustomPositionsFrom, h5]
      rw [hpos]
      obtain ⟨hc, hb⟩ := ih (base + 1)
      constructor
      · rw [List.chain'_cons']
        refine ⟨?_, hc⟩
        intro b hb'
        have hmem : b ∈ nonCustomPositionsFrom (base + 1) rest :=
          List.mem_of_mem_head? hb'
        have := hb b hmem
        omega
      · intro x hx
        rcases List.mem_cons.mp hx with hx0 | hx1
        · omega
        · have := hb x hx1; omega

/-- C2 (amended): the recorder's absolute index counter advances on every
event, custom ones included, so the frame entries' `i` values are exactly the
zero-based positions of the non-custom events within the full arrival order;
they are strictly increasing, but a custom (type-5) event does consume an
index, leaving a gap between adjacent frame entries. -/
theorem recorder_absIndex_positions (evs : List (Nat × RREvent)) :
    ((runEmits initialRecorderState evs).framesLog.map (fun f => f.i))
        = nonCustomPositions evs
    ∧ List.Chain' (fun a b => a < b)
        ((runEmits initialRecorderState evs).framesLog.map (fun f => f.i)) := by
  have h := runEmits_framesLog_i evs initialRecorderState
  have hz : initialRecorderState.absIndex + 1 = 0 := by decide
  rw [hz] at h
  have h' : ((runEmits initialRecorderState evs).framesLog.map (fun f => f.i))
      = nonCustomPositions evs := by
    simpa [initialRecorderState, nonCustomPositions] using h
  exact ⟨h', h' ▸ (nonCustomPositionsFrom_chain evs 0).1⟩

/-- Counterexample to C2 as stated: a custom (type-5) event followed by one
non-custom event.  The claim says the first non-custom event receives
`i = 0`; the recorder gives it `i = 1`, because `absIndex` was already
incremented for the custom event. -/
theorem recorder_custom_consumes_index_cex :
    ((runEmits initialRecorderState
        [(0, ⟨5, 1000⟩), (0, ⟨3, 1000⟩)]).framesLog.map (fun f => f.i)) = [1]
    ∧ ((runEmits initialRecorderState
        [(0, ⟨5, 1000⟩), (0, ⟨3, 1000⟩)]).framesLog.map (fun f => f.i)) ≠ [0] := by
  decide

/-- Appending one entry adds one to the filtered count exactly when the new
entry carries the filtered timestamp. -/
theorem filter_ts_append (F : List FrameEntry) (fe : FrameEntry) (t : Int) :
    ((F ++ [fe]).filter (fun g => g.ts = t)).length
      = (F.filter (fun g => g.ts = t)).length
        + (if fe.ts = t then 1 else 0) := by
  rw [List.filter_append, List.length_append]
  by_cases h : fe.ts = t
  · simp [List.filter_cons, h]
  · simp [List.filter_cons, h]

/-- Appending an entry whose `k` equals the current same-`ts` count preserves
the ordinal property. -/
theorem KCountProp_append (F : List FrameEntry) (fe : FrameEntry)
    (h2 : KCountProp F)
    (hk : fe.k = (F.filter (fun g => g.ts = fe.ts)).length) :
    KCountProp (F ++ [fe]) := by
  intro j hj
  rw [List.length_append, List.length_singleton] at hj
  rcases Nat.lt_or_ge j F.length with hlt | hge
  · have hlen : j < (F ++ [fe]).length := by
      rw [List.length_append]; omega
    have hgetD : (F ++ [fe]).getD j FrameEntry.dflt
        = F.getD j FrameEntry.dflt := by
      rw [List.getD_eq_getElem _ _ hlen, List.getElem_append_left hlt,
        List.getD_eq_getElem _ _ hlt]
    have htake : (F ++ [fe]).take j = F.take j :=
      List.take_append_of_le_length (le_of_lt hlt)
    rw [hgetD, htake]
    exact h2 j hlt
  · have hj2 : j = F.length := by omega
    subst hj2
    have hlen : F.length < (F ++ [fe]).length := by
      simp
    have hgetD : (F ++ [fe]).getD F.length FrameEntry.dflt = fe := by
      rw [List.getD_eq_getElem _ _ hlen, List.getElem_concat_length _ _ _ rfl]
    have htake : (F ++ [fe]).take F.length = F := List.take_left _ _
    rw [hgetD, htake]
    exact hk

/-- One emit step preserves both recorder invariants: the `tsCounts` map
mirrors per-timestamp frame counts, and every frame entry\'s `k` counts the
earlier entries with the same `ts`. -/
theorem rrwebEmit_preserves_inv (st : RecorderState) (tab : Nat) (e : RREvent)
    (h1 : TsCountsConsistent st) (h2 : KCountProp st.framesLog) :
    TsCountsConsistent (rrwebEmit st tab e)
    ∧ KCountProp (rrwebEmit st tab e).framesLog := by
  by_cases h5 : e.type = 5
  · constructor
    · intro ts; simpa [rrwebEmit, h5] using h1 ts
    · simpa [rrwebEmit, h5] using h2
  · have hlog : (rrwebEmit st tab e).framesLog
        = st.framesLog
          ++ [(⟨e.timestamp, (st.tsCounts e.timestamp).getD 0,
                st.absIndex + 1, tab⟩ : FrameEntry)] := by
      simp [rrwebEmit, h5]
    have hcnt : ∀ t, ((rrwebEmit st tab e).tsCounts t).getD 0
        = if t = e.timestamp then (st.tsCounts e.timestamp).getD 0 + 1
          else (st.tsCounts t).getD 0 := by
      intro t
      by_cases ht : t = e.timestamp <;> simp [rrwebEmit, h5, ht]
    constructor
    · intro t
      rw [hcnt t, hlog, filter_ts_append]
      by_cases ht : t = e.timestamp
      · simp only [ht]
        rw [h1 e.timestamp]
        simp
      · have hne : ¬ ((⟨e.timestamp, (st.tsCounts e.timestamp).getD 0,
            st.absIndex + 1, tab⟩ : FrameEntry).ts = t) := fun hc => ht (by
          simpa using hc.symm)
        rw [if_neg hne, if_neg ht]
        simp [h1 t]
    · rw [hlog]
      refine KCountProp_append st.framesLog _ h2 ?_
      exact h1 e.timestamp

/-- The emit invariants hold along any run. -/
theorem runEmits_preserves_inv (evs : List (Nat × RREvent)) :
    ∀ st : RecorderState, TsCountsConsistent st → KCountProp st.framesLog →
      TsCountsConsistent (runEmits st evs)
      ∧ KCountProp (runEmits st evs).framesLog := by
  induction evs with
  | nil => intro st h1 h2; exact ⟨h1, h2⟩
  | cons te rest ih =>
    intro st h1 h2
    obtain ⟨tab, e⟩ := te
    obtain ⟨h1', h2'⟩ := rrwebEmit_preserves_inv st tab e h1 h2
    exact ih (rrwebEmit st tab e) h1' h2'

/-- C3 (amended): a frame entry's `k` is the zero-based count of the
non-custom events appended earlier in the session (any tab) sharing the same
`ts` value; the `tsCounts` map is never reset, so an event whose `ts`
matches an earlier timestamp continues that timestamp's count even when
other timestamps intervened. -/
theorem recorder_k_counts_same_ts (evs : List (Nat × RREvent)) (j : Nat)
    (hj : j < (runEmits initialRecorderState evs).framesLog.length) :
    ((runEmits initialRecorderState evs).framesLog.getD j FrameEntry.dflt).k
      = (((runEmits initialRecorderState evs).framesLog.take j).filter
          (fun g => g.ts
            = ((runEmits initialRecorderState
                evs).framesLog.getD j FrameEntry.dflt).ts)).length := by
  have hinit1 : TsCountsConsistent initialRecorderState := by
    intro ts; rfl
  have hinit2 : KCountProp initialRecorderState.framesLog := by
    intro j hj'
    simp [initialRecorderState] at hj'
  exact (runEmits_preserves_inv evs initialRecorderState hinit1 hinit2).2 j hj

/-- Witness for the amended C3: in the run ts=1000, ts=2000, ts=1000 the
third frame entry (index 2) has `k = 1`, the count of earlier entries with
ts=1000. -/
theorem recorder_k_counts_same_ts_witness :
    2 < (runEmits initialRecorderState
        [(0, ⟨3, 1000⟩), (0, ⟨3, 2000⟩), (0, ⟨3, 1000⟩)]).framesLog.length
    ∧ ((runEmits initialRecorderState
        [(0, ⟨3, 1000⟩), (0, ⟨3, 2000⟩), (0, ⟨3, 1000⟩)]).framesLog.getD 2
          FrameEntry.dflt).k
      = (((runEmits initialRecorderState
          [(0, ⟨3, 1000⟩), (0, ⟨3, 2000⟩), (0, ⟨3, 1000⟩)]).framesLog.take 2).filter
          (fun g => g.ts
            = ((runEmits initialRecorderState
                [(0, ⟨3, 1000⟩), (0, ⟨3, 2000⟩), (0, ⟨3, 1000⟩)]).framesLog.getD 2
                  FrameEntry.dflt).ts)).length :=
  ⟨by decide,
    recorder_k_counts_same_ts
      [(0, ⟨3, 1000⟩), (0, ⟨3, 2000⟩), (0, ⟨3, 1000⟩)] 2 (by decide)⟩

/-- Counterexample to C3 as stated: events at ts=1000, ts=2000, ts=1000.
The claim says the third event receives `k = 0` because its `ts` differs
from the previous entry's; the recorder gives it `k = 1`, continuing the
never-reset count for ts=1000. -/
theorem recorder_k_not_reset_cex :
    ((runEmits initialRecorderState
        [(0, ⟨3, 1000⟩), (0, ⟨3, 2000⟩), (0, ⟨3, 1000⟩)]).framesLog.map
          (fun f => f.k)) = [0, 0, 1]
    ∧ ((runEmits initialRecorderState
        [(0, ⟨3, 1000⟩), (0, ⟨3, 2000⟩), (0, ⟨3, 1000⟩)]).framesLog.map
          (fun f => f.k)) ≠ [0, 0, 0] := by
  decide

/-! ### Binary search over the sorted frame index -/

/-- In a timestamp-sorted frame list, timestamps are monotone in the index. -/
theorem tsSorted_getD_mono {frames : List FrameEntry} (hs : TsSorted frames)
    {a b : Nat} (hab : a ≤ b) (hb : b < frames.length) :
    (frames.getD a FrameEntry.dflt).ts
      ≤ (frames.getD b FrameEntry.dflt).ts := by
  have ha : a < frames.length := Nat.lt_of_le_of_lt hab hb
  rcases Nat.lt_or_ge a b with hlt | hge
  · have h := List.pairwise_iff_get.mp hs ⟨a, ha⟩ ⟨b, hb⟩ hlt
    rw [List.getD_eq_getElem _ _ ha, List.getD_eq_getElem _ _ hb]
    simpa [List.get_eq_getElem] using h
  · have hab2 : a = b := le_antisymm hab hge
    subst hab2
    exact le_refl _

/-- Loop invariant of the binary search: if index `j` is the greatest one
whose timestamp is at or below the target, and the window `[left, right]`
still brackets `j` while the running result is the entry just left of the
window, then the loop returns the entry at `j`.  The iteration budget only
needs to cover the current window size. -/
theorem bsLoop_inv (frames : List FrameEntry) (T : Int) (hs : TsSorted frames)
    (j : Nat) (hj : j < frames.length)
    (hjle : (frames.getD j FrameEntry.dflt).ts ≤ T)
    (hjmax : ∀ m, m < frames.length →
      (frames.getD m FrameEntry.dflt).ts ≤ T → m ≤ j) :
    ∀ (fuel : Nat) (left right : Int),
      (right + 1 - left).toNat ≤ fuel →
      0 ≤ left → left ≤ (j : Int) + 1 → (j : Int) ≤ right →
      right ≤ (frames.length : Int) - 1 →
      bsLoop frames T fuel left right
          (if left = 0 then none
           else some (frames.getD (left - 1).toNat FrameEntry.dflt))
        = some (frames.getD j FrameEntry.dflt) := by
  intro fuel
  induction fuel with
  | zero =>
    intro left right hfuel h0 hlj hjr hrlen
    have hleft : left = (j : Int) + 1 := by omega
    have hne : ¬ left = 0 := by omega
    rw [bsLoop, if_neg hne]
    have hidx : (left - 1).toNat = j := by omega
    rw [hidx]
  | succ fuel ih =>
    intro left right hfuel h0 hlj hjr hrlen
    simp only [bsLoop]
    by_cases hlr : left ≤ right
    · rw [if_pos hlr]
      have hml : left ≤ (left + right) / 2 := by
        have h1 := Int.ediv_le_ediv (by omega : (0:Int) < 2)
          (show 2 * left ≤ left + right by omega)
        rwa [Int.mul_ediv_cancel_left left (by omega)] at h1
      have hmr : (left + right) / 2 ≤ right := by
        have h1 := Int.ediv_le_ediv (by omega : (0:Int) < 2)
          (show left + right ≤ 2 * right by omega)
        rwa [Int.mul_ediv_cancel_left right (by omega)] at h1
      have hm0 : 0 ≤ (left + right) / 2 := le_trans h0 hml
      have hmlen : ((left + right) / 2).toNat < frames.length := by omega
      by_cases hcase :
          (frames.getD ((left + right) / 2).toNat FrameEntry.dflt).ts ≤ T
      · rw [if_pos hcase]
        have hmj : ((left + right) / 2).toNat ≤ j := hjmax _ hmlen hcase
        have hres : (if ((left + right) / 2 + 1 : Int) = 0 then none
            else some (frames.getD (((left + right) / 2 + 1 : Int) - 1).toNat
              FrameEntry.dflt))
            = some (frames.getD ((left + right) / 2).toNat FrameEntry.dflt) := by
          rw [if_neg (by omega)]
          have hsimp : ((left + right) / 2 + 1 - 1 : Int) = (left + right) / 2 := by
            ring
          rw [hsimp]
        rw [← hres]
        exact ih ((left + right) / 2 + 1) right (by omega) (by omega)
          (by omega) hjr hrlen
      · rw [if_neg hcase]
        have hjm : j < ((left + right) / 2).toNat := by
          by_contra hle
          push_neg at hle
          exact hcase (le_trans
            (tsSorted_getD_mono hs hle hj) hjle)
        exact ih left ((left + right) / 2 - 1) (by omega) h0 hlj
          (by omega) (by omega)
    · rw [if_neg hlr]
      have hleft : left = (j : Int) + 1 := by omega
      have hne : ¬ left = 0 := by omega
      rw [if_neg hne]
      have hidx : (left - 1).toNat = j := by omega
      rw [hidx]

/-- The binary search returns the entry at the greatest index whose
timestamp is at or below the target. -/
theorem bs_eq_of_max (frames : List FrameEntry) (T : Int) (hs : TsSorted frames)
    (j : Nat) (hj : j < frames.length)
    (hjle : (frames.getD j FrameEntry.dflt).ts ≤ T)
    (hjmax : ∀ m, m < frames.length →
      (frames.getD m FrameEntry.dflt).ts ≤ T → m ≤ j) :
    binarySearchFrameByTimestamp frames T
      = some (frames.getD j FrameEntry.dflt) := by
  unfold binarySearchFrameByTimestamp
  have hlen : ¬ frames.length = 0 := by omega
  rw [if_neg hlen]
  have h0le : ¬ T < (frames.getD 0 FrameEntry.dflt).ts := by
    push_neg
    exact le_trans (tsSorted_getD_mono hs (Nat.zero_le j) hj) hjle
  rw [if_neg h0le]
  by_cases hlast : (frames.getD (frames.length - 1) FrameEntry.dflt).ts ≤ T
  · rw [if_pos hlast]
    have hle : frames.length - 1 ≤ j := hjmax _ (by omega) hlast
    have hj2 : j = frames.length - 1 := by omega
    rw [hj2]
  · rw [if_neg hlast]
    have h := bsLoop_inv frames T hs j hj hjle hjmax frames.length
      0 ((frames.length : Int) - 1) (by omega) (by omega) (by omega)
      (by omega) (by omega)
    simpa using h

/-- When the first entry's timestamp is at or below the target, a greatest
matching index exists. -/
theorem exists_max_index (frames : List FrameEntry) (T : Int)
    (hlen : frames.length ≠ 0)
    (h0 : (frames.getD 0 FrameEntry.dflt).ts ≤ T) :
    ∃ j, j < frames.length ∧ (frames.getD j FrameEntry.dflt).ts ≤ T
      ∧ ∀ m, m < frames.length →
          (frames.getD m FrameEntry.dflt).ts ≤ T → m ≤ j := by
  refine ⟨Nat.findGreatest
    (fun m => (frames.getD m FrameEntry.dflt).ts ≤ T) (frames.length - 1),
    ?_, ?_, ?_⟩
  · have h := Nat.findGreatest_le
      (P := fun m => (frames.getD m FrameEntry.dflt).ts ≤ T)
      (frames.length - 1)
    omega
  · exact Nat.findGreatest_spec
      (P := fun m => (frames.getD m FrameEntry.dflt).ts ≤ T)
      (Nat.zero_le _) h0
  · intro m hm hP
    by_contra hgt
    push_neg at hgt
    exact (Nat.findGreatest_is_greatest hgt (by omega)) hP

/-- Dropping the head of a list with a non-empty tail keeps the last
element. -/
theorem getLast?_cons_of_ne_nil {α : Type} (x : α) {l : List α}
    (h : l ≠ []) : (x :: l).getLast? = l.getLast? := by
  cases l with
  | nil => exact absurd rfl h
  | cons y ys => exact List.getLast?_cons_cons

/-- If index `j` is the last index satisfying `p`, then the last element of
the filtered list is the entry at `j`. -/
theorem filter_getLast_of_max (p : FrameEntry → Bool) :
    ∀ (l : List FrameEntry) (j : Nat), j < l.length →
      p (l.getD j FrameEntry.dflt) = true →
      (∀ m, j < m → m < l.length →
        ¬ p (l.getD m FrameEntry.dflt) = true) →
      (l.filter p).getLast? = some (l.getD j FrameEntry.dflt) := by
  intro l
  induction l with
  | nil =>
    intro j hj
    simp at hj
  | cons x xs ih =>
    intro j hj hpj hmax
    cases j with
    | zero =>
      have hxs : xs.filter p = [] := by
        rw [List.filter_eq_nil_iff]
        intro a ha
        obtain ⟨n, hn⟩ := List.mem_iff_get.mp ha
        have h1 := hmax (n.1 + 1) (Nat.succ_pos _)
          (by simp [Nat.succ_lt_succ n.2])
        rw [List.getD_cons_succ, List.getD_eq_getElem _ _ n.2,
          ← List.get_eq_getElem, hn] at h1
        exact h1
      rw [List.getD_cons_zero] at hpj ⊢
      rw [List.filter_cons, if_pos hpj, hxs]
      rfl
    | succ j2 =>
      have hj2 : j2 < xs.length := by simpa using hj
      have hpj2 : p (xs.getD j2 FrameEntry.dflt) = true := by
        simpa [List.getD_cons_succ] using hpj
      have hmax2 : ∀ m, j2 < m → m < xs.length →
          ¬ p (xs.getD m FrameEntry.dflt) = true := by
        intro m hm1 hm2
        have h1 := hmax (m + 1) (by omega)
          (by simpa using Nat.succ_lt_succ hm2)
        simpa [List.getD_cons_succ] using h1
      have htail := ih j2 hj2 hpj2 hmax2
      have hne : xs.filter p ≠ [] := by
        intro hc
        rw [hc] at htail
        simp at htail
      rw [List.getD_cons_succ, List.filter_cons]
      by_cases hx : p x = true
      · rw [if_pos hx, getLast?_cons_of_ne_nil x hne]
        exact htail
      · rw [if_neg hx]
        exact htail

/-- On a sorted frame list, the binary search agrees with the linear
"last entry with `ts ≤ target`" lookup. -/
theorem bs_eq_filter_getLast (frames : List FrameEntry) (T : Int)
    (hs : TsSorted frames) :
    binarySearchFrameByTimestamp frames T
      = (frames.filter (fun f => f.ts ≤ T)).getLast? := by
  rcases eq_or_ne frames [] with hnil | hne
  · subst hnil; rfl
  · have hlen : frames.length ≠ 0 := by
      simpa [List.length_eq_zero] using hne
    by_cases h0 : T < (frames.getD 0 FrameEntry.dflt).ts
    · have hbs : binarySearchFrameByTimestamp frames T = none := by
        unfold binarySearchFrameByTimestamp
        rw [if_neg hlen, if_pos h0]
      have hfil : frames.filter (fun f => f.ts ≤ T) = [] := by
        rw [List.filter_eq_nil_iff]
        intro a ha
        obtain ⟨n, hn⟩ := List.mem_iff_get.mp ha
        have hmono := tsSorted_getD_mono hs (Nat.zero_le n.1) n.2
        rw [List.getD_eq_getElem _ _ n.2, ← List.get_eq_getElem, hn] at hmono
        simp only [decide_eq_true_eq]
        omega
      rw [hbs, hfil]
      rfl
    · push_neg at h0
      obtain ⟨j, hj, hjle, hjmax⟩ := exists_max_index frames T hlen h0
      rw [bs_eq_of_max frames T hs j hj hjle hjmax]
      symm
      apply filter_getLast_of_max _ _ j hj
      · simpa using hjle
      · intro m hm1 hm2 hc
        have h1 : m ≤ j := hjmax m hm2 (by simpa using hc)
        omega

/-- Any entry the binary search returns sits at the greatest index whose
timestamp is at or below the target. -/
theorem bs_some_elim {frames : List FrameEntry} {T : Int} {f : FrameEntry}
    (hs : TsSorted frames)
    (hf : binarySearchFrameByTimestamp frames T = some f) :
    ∃ j, j < frames.length ∧ f = frames.getD j FrameEntry.dflt
      ∧ (frames.getD j FrameEntry.dflt).ts ≤ T
      ∧ ∀ m, m < frames.length →
          (frames.getD m FrameEntry.dflt).ts ≤ T → m ≤ j := by
  have hne : frames ≠ [] := by
    rintro rfl
    simp [binarySearchFrameByTimestamp] at hf
  have hlen : frames.length ≠ 0 := by
    simpa [List.length_eq_zero] using hne
  by_cases h0 : T < (frames.getD 0 FrameEntry.dflt).ts
  · exfalso
    unfold binarySearchFrameByTimestamp at hf
    rw [if_neg hlen, if_pos h0] at hf
    cases hf
  · push_neg at h0
    obtain ⟨j, hj, hjle, hjmax⟩ := exists_max_index frames T hlen h0
    have hmax := bs_eq_of_max frames T hs j hj hjle hjmax
    have heq : f = frames.getD j FrameEntry.dflt :=
      (Option.some.inj (hmax.symm.trans hf)).symm
    exact ⟨j, hj, heq, hjle, hjmax⟩

/-- C1: on a frame index sorted by non-decreasing timestamp,
`binarySearchFrameByTimestamp` resolves a target to the rightmost entry with
`ts ≤ target` (the last entry of the filtered list); it returns no result
exactly when the index is empty or the target precedes the first entry's
timestamp; it returns the last entry whenever the target is at or after the
last entry's timestamp; the returned entry has the largest `ts ≤ target`,
and — when entries sharing a timestamp carry increasing `k` (arrival
order) — the maximal `k` among entries at that timestamp. -/
theorem binarySearch_rightmost (frames : List FrameEntry) (T : Int)
    (hs : TsSorted frames) :
    binarySearchFrameByTimestamp frames T
        = (frames.filter (fun f => f.ts ≤ T)).getLast?
    ∧ (binarySearchFrameByTimestamp frames T = none
        ↔ frames = [] ∨ ∃ f0 ∈ frames.head?, T < f0.ts)
    ∧ (∀ fl ∈ frames.getLast?, fl.ts ≤ T →
        binarySearchFrameByTimestamp frames T = some fl)
    ∧ (∀ f ∈ binarySearchFrameByTimestamp frames T,
        f.ts ≤ T ∧ ∀ g ∈ frames, g.ts ≤ T → g.ts ≤ f.ts)
    ∧ (KOrdered frames → ∀ f ∈ binarySearchFrameByTimestamp frames T,
        ∀ g ∈ frames, g.ts = f.ts → g.k ≤ f.k) := by
  refine ⟨bs_eq_filter_getLast frames T hs, ?_, ?_, ?_, ?_⟩
  · cases frames with
    | nil => simp [binarySearchFrameByTimestamp]
    | cons x rest =>
      constructor
      · intro hn
        rw [bs_eq_filter_getLast _ _ hs] at hn
        have hfil : (x :: rest).filter (fun f => f.ts ≤ T) = [] :=
          List.getLast?_eq_none_iff.mp hn
        right
        refine ⟨x, by simp, ?_⟩
        by_contra hxle
        push_neg at hxle
        have hmem : x ∈ (x :: rest).filter (fun f => f.ts ≤ T) :=
          List.mem_filter.mpr ⟨List.mem_cons_self x rest, by simpa using hxle⟩
        rw [hfil] at hmem
        cases hmem
      · intro h
        rcases h with h | ⟨f0, hf0, hlt⟩
        · exact absurd h (List.cons_ne_nil x rest)
        · have hfx : x = f0 := by simpa using hf0
          subst hfx
          unfold binarySearchFrameByTimestamp
          rw [if_neg (by simp),
            if_pos (by simpa [List.getD_cons_zero] using hlt)]
  · intro fl hfl hle
    have hne : frames ≠ [] := by
      intro hc
      subst hc
      simp at hfl
    have hlen0 : frames.length ≠ 0 := by
      simpa [List.length_eq_zero] using hne
    have hlt : frames.length - 1 < frames.length := by omega
    have hfl2 : fl = frames.getD (frames.length - 1) FrameEntry.dflt := by
      have h1 : frames.getLast?
          = some (frames.getD (frames.length - 1) FrameEntry.dflt) := by
        rw [List.getLast?_eq_getElem?, List.getElem?_eq_getElem hlt,
          List.getD_eq_getElem _ _ hlt]
      rw [h1] at hfl
      exact (Option.some.inj (Option.mem_def.mp hfl)).symm
    unfold binarySearchFrameByTimestamp
    rw [if_neg hlen0]
    have h0 : ¬ T < (frames.getD 0 FrameEntry.dflt).ts := by
      push_neg
      calc (frames.getD 0 FrameEntry.dflt).ts
          ≤ (frames.getD (frames.length - 1) FrameEntry.dflt).ts :=
            tsSorted_getD_mono hs (Nat.zero_le _) hlt
        _ = fl.ts := by rw [← hfl2]
        _ ≤ T := hle
    rw [if_neg h0, if_pos (by rw [← hfl2]; exact hle), ← hfl2]
  · intro f hf
    have hf2 : binarySearchFrameByTimestamp frames T = some f := by
      simpa [Option.mem_def] using hf
    obtain ⟨j, hj, hfeq, hjle, hjmax⟩ := bs_some_elim hs hf2
    constructor
    · rw [hfeq]; exact hjle
    · intro g hg hgle
      obtain ⟨n, hn⟩ := List.mem_iff_get.mp hg
      have hgD : frames.getD n.1 FrameEntry.dflt = g := by
        rw [List.getD_eq_getElem _ _ n.2, ← List.get_eq_getElem, hn]
      have hle2 : n.1 ≤ j := hjmax n.1 n.2 (by rw [hgD]; exact hgle)
      have hmono := tsSorted_getD_mono hs hle2 hj
      rw [hgD, ← hfeq] at hmono
      exact hmono
  · intro hk f hf g hg hts
    have hf2 : binarySearchFrameByTimestamp frames T = some f := by
      simpa [Option.mem_def] using hf
    obtain ⟨j, hj, hfeq, hjle, hjmax⟩ := bs_some_elim hs hf2
    obtain ⟨n, hn⟩ := List.mem_iff_get.mp hg
    have hgD : frames.getD n.1 FrameEntry.dflt = g := by
      rw [List.getD_eq_getElem _ _ n.2, ← List.get_eq_getElem, hn]
    have hgle : (frames.getD n.1 FrameEntry.dflt).ts ≤ T := by
      rw [hgD, hts, hfeq]
      exact hjle
    have hnj : n.1 ≤ j := hjmax n.1 n.2 hgle
    rcases Nat.lt_or_ge n.1 j with hlt | hge2
    · have hR := List.pairwise_iff_get.mp hk ⟨n.1, n.2⟩ ⟨j, hj⟩ hlt
      have hgetj : frames.get ⟨j, hj⟩ = frames.getD j FrameEntry.dflt := by
        rw [List.get_eq_getElem, List.getD_eq_getElem _ _ hj]
      have hgetn : frames.get ⟨n.1, n.2⟩ = g := hn
      rw [hgetn, hgetj, ← hfeq] at hR
      exact le_of_lt (hR hts)
    · have hnj2 : n.1 = j := le_antisymm hnj hge2
      have hgf : g = f := by
        rw [← hgD, hnj2, ← hfeq]
      rw [hgf]

/-- Witness for C1: the frame index of the spec's scenario, sorted, with the
search at target 1200 returning the last filtered entry. -/
theorem binarySearch_rightmost_witness :
    TsSorted [⟨1000, 0, 0, 0⟩, ⟨1000, 1, 1, 0⟩, ⟨1500, 0, 2, 0⟩]
    ∧ binarySearchFrameByTimestamp
        [⟨1000, 0, 0, 0⟩, ⟨1000, 1, 1, 0⟩, ⟨1500, 0, 2, 0⟩] 1200
      = (([⟨1000, 0, 0, 0⟩, ⟨1000, 1, 1, 0⟩, ⟨1500, 0, 2, 0⟩]
          : List FrameEntry).filter (fun f => f.ts ≤ 1200)).getLast? :=
  ⟨by decide,
    (binarySearch_rightmost
      [⟨1000, 0, 0, 0⟩, ⟨1000, 1, 1, 0⟩, ⟨1500, 0, 2, 0⟩] 1200 (by decide)).1⟩

/-- The spec's concrete scenario, checked directly: target 1200 resolves to
the (1000, k=1) entry, target 900 to no result, target 1500 to the
(1500, k=0) entry. -/
theorem binarySearch_scenario :
    binarySearchFrameByTimestamp
        [⟨1000, 0, 0, 0⟩, ⟨1000, 1, 1, 0⟩, ⟨1500, 0, 2, 0⟩] 1200
      = some ⟨1000, 1, 1, 0⟩
    ∧ binarySearchFrameByTimestamp
        [⟨1000, 0, 0, 0⟩, ⟨1000, 1, 1, 0⟩, ⟨1500, 0, 2, 0⟩] 900 = none
    ∧ binarySearchFrameByTimestamp
        [⟨1000, 0, 0, 0⟩, ⟨1000, 1, 1, 0⟩, ⟨1500, 0, 2, 0⟩] 1500
      = some ⟨1500, 0, 2, 0⟩ := by
  decide

/-- A non-empty list's last element is the entry at index `length - 1`. -/
theorem getLast?_eq_getD {l : List FrameEntry} (h : l ≠ []) :
    l.getLast? = some (l.getD (l.length - 1) FrameEntry.dflt) := by
  have hlen : 0 < l.length := List.length_pos.mpr h
  have hlt : l.length - 1 < l.length := by omega
  rw [List.getLast?_eq_getElem?, List.getElem?_eq_getElem hlt,
    List.getD_eq_getElem _ _ hlt]

/-- C5: on a sorted frame list the linear lookup used by the `+offset` and
ISO-timestamp locators (filter to `ts ≤ target`, take the last candidate)
returns exactly the same frame index as the binary search, including the
no-frame case; and the offset locator is timestamp lookup at
`firstTs + offset`. -/
theorem shot_linear_lookup_eq_binarySearch (frames : List FrameEntry)
    (firstTs offset T : Int) (hs : TsSorted frames) :
    shotLocateAtTs frames T
        = (binarySearchFrameByTimestamp frames T).map (fun f => f.i)
    ∧ shotLocateOffset frames firstTs offset
        = shotLocateAtTs frames (firstTs + offset) := by
  constructor
  · rw [bs_eq_filter_getLast frames T hs]
    simp only [shotLocateAtTs]
    rcases eq_or_ne (frames.filter (fun f => f.ts ≤ T)) [] with hf | hf
    · rw [hf]
      simp
    · have hlen : ¬ (frames.filter (fun f => f.ts ≤ T)).length = 0 := by
        simpa [List.length_eq_zero] using hf
      rw [if_neg hlen, getLast?_eq_getD hf]
      rfl
  · rfl

/-- Witness for C5: the scenario index at target 1200; both lookups return
frame index 1. -/
theorem shot_linear_lookup_eq_binarySearch_witness :
    TsSorted [⟨1000, 0, 0, 0⟩, ⟨1000, 1, 1, 0⟩, ⟨1500, 0, 2, 0⟩]
    ∧ shotLocateAtTs [⟨1000, 0, 0, 0⟩, ⟨1000, 1, 1, 0⟩, ⟨1500, 0, 2, 0⟩] 1200
      = (binarySearchFrameByTimestamp
          [⟨1000, 0, 0, 0⟩, ⟨1000, 1, 1, 0⟩, ⟨1500, 0, 2, 0⟩] 1200).map
          (fun f => f.i) :=
  ⟨by decide,
    (shot_linear_lookup_eq_binarySearch
      [⟨1000, 0, 0, 0⟩, ⟨1000, 1, 1, 0⟩, ⟨1500, 0, 2, 0⟩]
      1000 200 1200 (by decide)).1⟩

/-- C4 (amended): the `--index` locator passes the requested index through
with no bounds check: the shot errors exactly when the selected event list
(before or after tab resolution) is empty — a condition independent of the
index — and on success returns the requested index unchanged together with
the clamped prefix `events.slice(0, N + 1)` of the final event list. -/
theorem cmdShotByIndex_passthrough (eventsLines : List (Nat × RREvent))
    (frames : List FrameEntry) (flagTab : Option Nat) (n : Int) :
    ((∃ e, cmdShotByIndex eventsLines frames flagTab n = Except.error e)
      ↔ shotEvents eventsLines flagTab = []
        ∨ shotFinalEvents eventsLines frames flagTab n = [])
    ∧ ∀ subset idx,
        cmdShotByIndex eventsLines frames flagTab n = Except.ok (subset, idx) →
          idx = n ∧ subset
            = (shotFinalEvents eventsLines frames flagTab n).take
                (n + 1).toNat := by
  by_cases h1 : shotEvents eventsLines flagTab = []
  · refine ⟨⟨fun _ => Or.inl h1,
      fun _ => ⟨"No events found", by simp [cmdShotByIndex, h1]⟩⟩, ?_⟩
    intro subset idx hc
    simp [cmdShotByIndex, h1] at hc
  · by_cases h2 : shotFinalEvents eventsLines frames flagTab n = []
    · refine ⟨⟨fun _ => Or.inr h2,
        fun _ => ⟨"No events found for tab",
          by simp [cmdShotByIndex, h1, h2]⟩⟩, ?_⟩
      intro subset idx hc
      simp [cmdShotByIndex, h1, h2] at hc
    · constructor
      · constructor
        · rintro ⟨e, he⟩
          simp [cmdShotByIndex, h1, h2] at he
        · rintro (hc | hc)
          · exact absurd hc h1
          · exact absurd hc h2
      · intro subset idx hc
        simp only [cmdShotByIndex, if_neg h1, if_neg h2] at hc
        injection hc with hpair
        injection hpair with h3 h4
        exact ⟨h4.symm, h3.symm⟩

/-- Witness for the amended C4: index 5 on a 2-event log succeeds, returning
index 5 and the clamped (full) event prefix. -/
theorem cmdShotByIndex_passthrough_witness :
    (5 : Int) = 5
    ∧ ([⟨3, 1000⟩, ⟨3, 2000⟩] : List RREvent)
      = (shotFinalEvents [(0, ⟨3, 1000⟩), (0, ⟨3, 2000⟩)]
          [⟨1000, 0, 0, 0⟩, ⟨2000, 0, 1, 0⟩] none 5).take ((5 : Int) + 1).toNat :=
  (cmdShotByIndex_passthrough [(0, ⟨3, 1000⟩), (0, ⟨3, 2000⟩)]
      [⟨1000, 0, 0, 0⟩, ⟨2000, 0, 1, 0⟩] none 5).2
    [⟨3, 1000⟩, ⟨3, 2000⟩] 5 (by decide)

/-- Counterexample to C4 as stated: requesting index 5 on a log holding only
2 events does not report an error — the slice clamps and a screenshot of the
full log is produced with the index passed through. -/
theorem cmdShot_index_out_of_range_cex :
    ((([(0, ⟨3, 1000⟩), (0, ⟨3, 2000⟩)] : List (Nat × RREvent)).length : Int)
        ≤ 5)
    ∧ cmdShotByIndex [(0, ⟨3, 1000⟩), (0, ⟨3, 2000⟩)]
        [⟨1000, 0, 0, 0⟩, ⟨2000, 0, 1, 0⟩] none 5
      = Except.ok ([⟨3, 1000⟩, ⟨3, 2000⟩], 5) := by
  decide
